import Mathlib

/-!
# Verification of the geohash-hilbert core (`geohash_hilbert/_hilbert.py`)

Shallow embedding of the repository's Hilbert-curve geohash code and proofs of
the specification's claims about it.

Conventions of the embedding:
* Python `int` is `Int` (arbitrary precision, two's-complement bitwise ops);
  variables that the source provably keeps non-negative at every step
  (the accumulator `d` of `_xy2hash`, the `hashcode`/`lvl` counters) are
  embedded as `Nat`.
* Python `float` arithmetic in the quantizer/error calculator is embedded as
  exact rational arithmetic over `ℚ`.
* A Python `assert` is embedded by returning `Option`: a failing assertion is
  `none` (the raised `AssertionError`), success wraps the result in `some`.
* The string codec `_int2str.py` is not part of the sources; it is modelled
  from its documented contract (see `encodeInt`/`decodeInt` below).  A geohash
  string is modelled as the list of the alphabet indices of its characters
  (each character of a `bits_per_char`-bit alphabet stands for its index).
-/

namespace Geohash

/-- `_rotate(n, x, y, rx, ry)` from `_hilbert.py`: reflect the quadrant when
`ry == 0 and rx == 1`, then swap the axes when `ry == 0`. -/
def rotate (n : Nat) (x y rx ry : Int) : Int × Int :=
  if ry = 0 then
    if rx = 1 then ((n : Int) - 1 - y, (n : Int) - 1 - x)
    else (y, x)
  else (x, y)

/-- The `while (lvl > 0)` loop of `_xy2hash`: one iteration reads the
`lvl`-bit of `x` and `y` (Python `(x & lvl) > 0`), accumulates
`lvl * lvl * ((3 * rx) ^ ry)` into `d`, rotates, and halves `lvl`. -/
def xy2hashLoop (x y : Int) (lvl : Nat) (d : Nat) : Nat :=
  if 0 < lvl then
    let rx : Nat := if 0 < Int.land x (lvl : Int) then 1 else 0
    let ry : Nat := if 0 < Int.land y (lvl : Int) then 1 else 0
    let q := rotate lvl x y (rx : Int) (ry : Int)
    xy2hashLoop q.1 q.2 (lvl >>> 1) (d + lvl * lvl * ((3 * rx) ^^^ ry))
  else d
termination_by lvl
decreasing_by simpa [Nat.shiftRight_succ] using Nat.div_lt_self (by omega) (by omega)

/-- `_xy2hash(x, y, dim)`: `d = 0; lvl = dim >> 1;` then the loop.
The source performs no validation of `x`, `y` or `dim`. -/
def xy2hash (x y : Int) (dim : Nat) : Nat :=
  xy2hashLoop x y (dim >>> 1) 0

/-- The `while (lvl < dim)` loop of `_hash2xy`: one iteration reads the two
low bits of `hashcode`, rotates, adds `lvl * rx` / `lvl * ry`, shifts
`hashcode` down by two bits and doubles `lvl`.  (The `0 < lvl` conjunct only
makes termination manifest: the loop is entered with `lvl = 1` and `lvl` is
doubled each iteration, so `lvl` is never `0`.) -/
def hash2xyLoop (dim : Nat) (x y : Int) (hashcode : Nat) (lvl : Nat) : Int × Int :=
  if 0 < lvl ∧ lvl < dim then
    let rx : Nat := 1 &&& (hashcode >>> 1)
    let ry : Nat := 1 &&& (hashcode ^^^ rx)
    let q := rotate lvl x y (rx : Int) (ry : Int)
    hash2xyLoop dim (q.1 + lvl * rx) (q.2 + lvl * ry) (hashcode >>> 2) (lvl <<< 1)
  else (x, y)
termination_by dim - lvl
decreasing_by simp only [Nat.shiftLeft_eq]; omega

/-- The cell computed by `_hash2xy` after its assertion: `x = y = 0; lvl = 1;`
then the loop. -/
def hash2xyCell (hashcode dim : Nat) : Int × Int :=
  hash2xyLoop dim 0 0 hashcode 1

/-- `_hash2xy(hashcode, dim)` including its `assert(hashcode <= dim*dim - 1)`
(the comparison taken over `ℤ`, as in Python). -/
def hash2xy (hashcode dim : Nat) : Option (Int × Int) :=
  if (hashcode : Int) ≤ (dim : Int) * (dim : Int) - 1 then
    some (hash2xyCell hashcode dim)
  else none

/-! ### Structural twins of the two loops

`hilbertF j x y` runs the `_xy2hash` loop for exactly `j` iterations starting
at `lvl = 2 ^ (j - 1)`; `hilbertD j L p h` runs the `_hash2xy` loop for `j`
iterations starting at `lvl = L`.  They are definitionally the same
computations, organised by structural recursion on the iteration count, and
are proved below to coincide with the loops whenever `dim` is a power of two. -/

/-- The bit `rx`/`ry` read by the `_xy2hash` loop: `int((x & lvl) > 0)` for
`lvl = 2 ^ j`. -/
def bitF (x : Int) (j : Nat) : Nat :=
  if 0 < Int.land x ((2 ^ j : Nat) : Int) then 1 else 0

/-- `j` iterations of the `_xy2hash` loop, structurally. -/
def hilbertF : Nat → Int → Int → Nat
  | 0, _, _ => 0
  | j + 1, x, y =>
    let q := rotate (2 ^ j) x y (bitF x j : Int) (bitF y j : Int)
    2 ^ j * 2 ^ j * ((3 * bitF x j) ^^^ bitF y j) + hilbertF j q.1 q.2

/-- The bit `rx` read by the `_hash2xy` loop: `1 & (hashcode >> 1)`. -/
def rxOf (h : Nat) : Nat := 1 &&& (h >>> 1)

/-- The bit `ry` read by the `_hash2xy` loop: `1 & (hashcode ^ rx)`. -/
def ryOf (h : Nat) : Nat := 1 &&& (h ^^^ rxOf h)

/-- One iteration of the `_hash2xy` loop at sub-square size `L`. -/
def hilbertStep (L : Nat) (p : Int × Int) (h : Nat) : Int × Int :=
  let q := rotate L p.1 p.2 (rxOf h : Int) (ryOf h : Int)
  (q.1 + L * rxOf h, q.2 + L * ryOf h)

/-- `j` iterations of the `_hash2xy` loop, structurally. -/
def hilbertD : Nat → Nat → Int × Int → Nat → Int × Int
  | 0, _, p, _ => p
  | j + 1, L, p, h => hilbertD j (2 * L) (hilbertStep L p h) (h >>> 2)

/-! ### Grid quantizer and error margins (`ℚ` for Python `float`) -/

/-- `_dim_error(level)`: `error = 1 / (1 << level); return 180*error, 90*error`. -/
def dimError (level : Nat) : ℚ × ℚ :=
  (180 * (1 / ((1 <<< level : Nat) : ℚ)), 90 * (1 / ((1 <<< level : Nat) : ℚ)))

/-- `_coord2int(lng, lat, dim)` with its `assert dim >= 1`:
`x = floor((lng + 180.0) / 360.0 * dim)`, `y = floor((lat + 90.0) / 180.0 * dim)`,
returned as `(x, y)`. -/
def coord2int (lng lat : ℚ) (dim : Nat) : Option (Int × Int) :=
  if 1 ≤ dim then
    some (⌊(lng + 180) / 360 * (dim : ℚ)⌋, ⌊(lat + 90) / 180 * (dim : ℚ)⌋)
  else none

/-- `_int2coord(x, y, dim)` with its three assertions (`dim >= 1`, `x < dim`,
`y < dim`): `lng = x / dim * 360 - 180`, `lat = y / dim * 180 - 90`. -/
def int2coord (x y : Int) (dim : Nat) : Option (ℚ × ℚ) :=
  if 1 ≤ dim ∧ x < (dim : Int) ∧ y < (dim : Int) then
    some ((x : ℚ) / (dim : ℚ) * 360 - 180, (y : ℚ) / (dim : ℚ) * 180 - 90)
  else none

/-! ### The string codec, modelled from the spec -/

/-- Modelled from the spec: `encode_int(value, bits_per_char)` of the missing
`_int2str.py` module — "encodes `value` as a sequence of characters from a
fixed alphabet sized `2^bits_per_char`, most-significant group first,
producing the shortest representation (no leading padding)".  Characters are
modelled by their alphabet index. -/
def encodeInt (v : Nat) (bpc : Nat) : List Nat :=
  if 0 < v ∧ 0 < bpc then
    encodeInt (v >>> bpc) bpc ++ [v % 2 ^ bpc]
  else []
termination_by v
decreasing_by
  simp only [Nat.shiftRight_eq_div_pow]
  exact Nat.div_lt_self (by omega) (Nat.one_lt_two_pow_iff.mpr (by omega))

/-- Modelled from the spec: `decode_int(code, bits_per_char)` of the missing
`_int2str.py` module — "exact inverse; each character contributes
`bits_per_char` bits, concatenated most-significant-character first". -/
def decodeInt (code : List Nat) (bpc : Nat) : Nat :=
  code.foldl (fun acc c => acc * 2 ^ bpc + c) 0

/-- Python `str.rjust(width, '0')` on a modelled code: pad on the left with
the zero character (alphabet index `0`) up to `width`. -/
def rjust (code : List Nat) (width : Nat) : List Nat :=
  List.replicate (width - code.length) 0 ++ code

/-! ### The façade (`encode`, `decode`, `decode_exactly`) -/

/-- `encode(lng, lat, precision, bits_per_char)` from `_hilbert.py`, with its
four `assert`s as the guard: `bits = precision * bits_per_char;
level = bits >> 1; dim = 1 << level`, quantize, transform, pack, pad. -/
def encode (lng lat : ℚ) (precision : Int) (bpc : Nat) : Option (List Nat) :=
  if -180 ≤ lng ∧ lng ≤ 180 ∧ -90 ≤ lat ∧ lat ≤ 90 ∧ 0 ≤ precision ∧
      (bpc = 2 ∨ bpc = 4 ∨ bpc = 6) then
    let bits := precision.toNat * bpc
    let level := bits >>> 1
    let dim := 1 <<< level
    match coord2int lng lat dim with
    | none => none
    | some (x, y) => some (rjust (encodeInt (xy2hash x y dim) bpc) precision.toNat)
  else none

/-- `decode_exactly(code, bits_per_char)` from `_hilbert.py`:
`bits = len(code) * bits_per_char; level = bits >> 1; dim = 1 << level`;
unpack, inverse transform, unquantize, and report
`(lng + lng_err, lat + lat_err, lng_err, lat_err)`. -/
def decodeExactly (code : List Nat) (bpc : Nat) : Option (ℚ × ℚ × ℚ × ℚ) :=
  if bpc = 2 ∨ bpc = 4 ∨ bpc = 6 then
    let bits := code.length * bpc
    let level := bits >>> 1
    let dim := 1 <<< level
    match hash2xy (decodeInt code bpc) dim with
    | none => none
    | some (x, y) =>
      match int2coord x y dim with
      | none => none
      | some (lng, lat) =>
        some (lng + (dimError level).1, lat + (dimError level).2,
          (dimError level).1, (dimError level).2)
  else none

/-- `decode(code, bits_per_char)` from `_hilbert.py`: the first two components
of `decode_exactly`. -/
def decode (code : List Nat) (bpc : Nat) : Option (ℚ × ℚ) :=
  if bpc = 2 ∨ bpc = 4 ∨ bpc = 6 then
    match decodeExactly code bpc with
    | none => none
    | some (lng, lat, _, _) => some (lng, lat)
  else none

/-! ## Bit-level helpers

Python's `&`, `^` and shifts act on arbitrary-precision integers in
two's-complement fashion; these lemmas characterise the few combinations the
Hilbert transform uses. -/

theorem one_and_eq_mod (m : Nat) : 1 &&& m = m % 2 := by
  rw [Nat.and_comm]
  exact Nat.and_one_is_mod m

theorem nat_testBit_iff (m j : Nat) : m.testBit j = true ↔ 2 ^ j ≤ m % 2 ^ (j + 1) := by
  rw [Nat.testBit_to_div_mod, decide_eq_true_eq]
  have hm : m % 2 ^ (j + 1) = m % 2 ^ j + 2 ^ j * (m / 2 ^ j % 2) := by
    rw [pow_succ]
    exact Nat.mod_mul
  have h1 : m % 2 ^ j < 2 ^ j := Nat.mod_lt _ (Nat.two_pow_pos j)
  rcases (by omega : m / 2 ^ j % 2 = 0 ∨ m / 2 ^ j % 2 = 1) with h2 | h2 <;>
    rw [h2] at hm <;> simp only [Nat.mul_zero, Nat.mul_one, Nat.add_zero] at hm <;> omega

/-- `emod` of a negative integer `-(m+1)`, written via the bits of `m`. -/
theorem negSucc_emod (m N : Nat) (hN : 0 < N) :
    (Int.negSucc m) % (N : Int) = (N : Int) - 1 - ((m % N : Nat) : Int) := by
  have hdecomp : (Int.negSucc m)
      = ((N : Int) - 1 - ((m % N : Nat) : Int)) + (N : Int) * (-(((m / N : Nat) : Int) + 1)) := by
    rw [Int.negSucc_eq]
    have := Nat.div_add_mod m N
    push_cast
    push_cast at this
    linarith
  rw [hdecomp, Int.add_mul_emod_self_left]
  have hlt : m % N < N := Nat.mod_lt _ hN
  apply Int.emod_eq_of_lt
  · have : ((m % N : Nat) : Int) < (N : Int) := by exact_mod_cast hlt
    omega
  · have : (0:Int) ≤ ((m % N : Nat) : Int) := Int.natCast_nonneg _
    omega

/-- Bit `j` of an integer (two's complement) is set iff its residue
mod `2 ^ (j+1)` is at least `2 ^ j`. -/
theorem int_testBit_iff (x : Int) (j : Nat) :
    x.testBit j = true ↔ ((2 ^ j : Nat) : Int) ≤ x % ((2 ^ (j + 1) : Nat) : Int) := by
  cases x with
  | ofNat m =>
    show Nat.testBit m j = true ↔ _
    rw [nat_testBit_iff]
    have hcast : (Int.ofNat m) % ((2 ^ (j + 1) : Nat) : Int) = ((m % 2 ^ (j + 1) : Nat) : Int) :=
      (Int.natCast_mod m (2 ^ (j + 1))).symm
    rw [hcast]
    exact_mod_cast Iff.rfl
  | negSucc m =>
    show (!Nat.testBit m j) = true ↔ _
    rw [negSucc_emod m (2 ^ (j + 1)) (Nat.two_pow_pos _), Bool.not_eq_true',
      ← Bool.not_eq_true, nat_testBit_iff]
    have h1 : m % 2 ^ (j + 1) < 2 ^ (j + 1) := Nat.mod_lt _ (Nat.two_pow_pos _)
    have h2 : (2:Nat) ^ (j + 1) = 2 ^ j * 2 := pow_succ 2 j
    constructor
    · intro hlt
      have h4 : m % 2 ^ (j + 1) < 2 ^ j := by omega
      have h5 : ((m % 2 ^ (j + 1) : Nat) : Int) < ((2 ^ j : Nat) : Int) := by exact_mod_cast h4
      have h6 : ((2 ^ (j + 1) : Nat) : Int) = ((2 ^ j : Nat) : Int) * 2 := by exact_mod_cast h2
      omega
    · intro hle
      have h6 : ((2 ^ (j + 1) : Nat) : Int) = ((2 ^ j : Nat) : Int) * 2 := by exact_mod_cast h2
      have h5 : ((m % 2 ^ (j + 1) : Nat) : Int) < ((2 ^ j : Nat) : Int) := by omega
      have h4 : m % 2 ^ (j + 1) < 2 ^ j := by exact_mod_cast h5
      omega

/-- Python's test `(x & lvl) > 0` for `lvl = 2 ^ j` reads bit `j` of `x`. -/
theorem land_two_pow_pos_iff (x : Int) (j : Nat) :
    0 < Int.land x ((2 ^ j : Nat) : Int) ↔ x.testBit j = true := by
  cases x with
  | ofNat m =>
    have heq : Int.land (Int.ofNat m) ((2 ^ j : Nat) : Int) = ((m &&& 2 ^ j : Nat) : Int) := rfl
    rw [heq]
    show (0:Int) < ((m &&& 2 ^ j : Nat) : Int) ↔ Nat.testBit m j = true
    rw [Int.natCast_pos, Nat.and_two_pow]
    cases h : m.testBit j
    · simp
    · simp [Nat.two_pow_pos]
  | negSucc m =>
    have heq : Int.land (Int.negSucc m) ((2 ^ j : Nat) : Int)
        = ((Nat.ldiff (2 ^ j) m : Nat) : Int) := rfl
    rw [heq]
    show (0:Int) < ((Nat.ldiff (2 ^ j) m : Nat) : Int) ↔ (!Nat.testBit m j) = true
    rw [Int.natCast_pos]
    constructor
    · intro hpos
      by_contra hbit
      simp only [Bool.not_eq_true, Bool.not_eq_false] at hbit
      have hz : Nat.ldiff (2 ^ j) m = 0 := by
        apply Nat.zero_of_testBit_eq_false
        intro i
        rw [Nat.testBit_ldiff]
        rcases eq_or_ne j i with rfl | hne
        · simp [hbit]
        · simp [Nat.testBit_two_pow_of_ne hne]
      omega
    · intro hbit
      rw [Bool.not_eq_true'] at hbit
      have hb : (Nat.ldiff (2 ^ j) m).testBit j = true := by
        rw [Nat.testBit_ldiff, Nat.testBit_two_pow_self, hbit]
        rfl
      rcases Nat.eq_zero_or_pos (Nat.ldiff (2 ^ j) m) with hz | hp
      · rw [hz, Nat.zero_testBit] at hb
        exact absurd hb (by simp)
      · exact hp

theorem land_pos_iff (x : Int) (j : Nat) :
    0 < Int.land x ((2 ^ j : Nat) : Int)
      ↔ ((2 ^ j : Nat) : Int) ≤ x % ((2 ^ (j + 1) : Nat) : Int) := by
  rw [land_two_pow_pos_iff, int_testBit_iff]

/-! ## The loops coincide with their structural twins on power-of-two grids -/

theorem xy2hashLoop_pow (j : Nat) : ∀ (x y : Int) (d : Nat),
    xy2hashLoop x y (2 ^ j >>> 1) d = d + hilbertF j x y := by
  induction j with
  | zero =>
    intro x y d
    rw [xy2hashLoop]
    simp [hilbertF]
  | succ j ih =>
    intro x y d
    rw [xy2hashLoop]
    have h1 : 2 ^ (j + 1) >>> 1 = 2 ^ j := by
      simp [Nat.shiftRight_succ, Nat.pow_succ]
    rw [h1]
    simp only [Nat.two_pow_pos, if_pos]
    rw [ih]
    simp [hilbertF, bitF]
    ring

/-- `_xy2hash` on a power-of-two grid is `hilbertF`. -/
theorem xy2hash_pow (j : Nat) (x y : Int) : xy2hash x y (2 ^ j) = hilbertF j x y := by
  rw [xy2hash, xy2hashLoop_pow]
  omega

theorem hash2xyLoop_pow (j : Nat) : ∀ (L : Nat) (x y : Int) (h : Nat), 0 < L →
    hash2xyLoop (2 ^ j * L) x y h L = hilbertD j L (x, y) h := by
  induction j with
  | zero =>
    intro L x y h hL
    rw [hash2xyLoop]
    simp [hilbertD]
  | succ j ih =>
    intro L x y h hL
    rw [hash2xyLoop]
    have hlt : L < 2 ^ (j + 1) * L := by
      have h2 : (1:Nat) < 2 ^ (j + 1) := Nat.one_lt_two_pow_iff.mpr (by omega)
      nlinarith
    rw [if_pos ⟨hL, hlt⟩]
    have hdim : 2 ^ (j + 1) * L = 2 ^ j * (2 * L) := by ring
    have hsh : L <<< 1 = 2 * L := by
      simp [Nat.shiftLeft_eq]
      ring
    rw [hsh] at *
    simp only [hdim]
    rw [ih (2 * L) _ _ _ (by omega)]
    simp [hilbertD, hilbertStep, rxOf, ryOf]

/-- `_hash2xy`'s loop on a power-of-two grid is `hilbertD`. -/
theorem hash2xyCell_pow (j : Nat) (h : Nat) :
    hash2xyCell h (2 ^ j) = hilbertD j 1 (0, 0) h := by
  rw [hash2xyCell, show (2:Nat) ^ j = 2 ^ j * 1 by ring, hash2xyLoop_pow j 1 0 0 h (by omega)]

/-! ## Invariants of the structural transforms -/

theorem emod_sub_congr {n a b : Int} (c : Int) (h : a % n = b % n) :
    (c - a) % n = (c - b) % n := by
  rw [Int.sub_emod, h, ← Int.sub_emod]

theorem bitF_congr {x u : Int} (j : Nat)
    (h : x % ((2 ^ (j + 1) : Nat) : Int) = u % ((2 ^ (j + 1) : Nat) : Int)) :
    bitF x j = bitF u j := by
  unfold bitF
  by_cases hx : 0 < Int.land x ((2 ^ j : Nat) : Int)
  · rw [if_pos hx, if_pos (by rw [land_pos_iff, ← h, ← land_pos_iff]; exact hx)]
  · rw [if_neg hx, if_neg (by rw [land_pos_iff, ← h, ← land_pos_iff]; exact hx)]

/-- `hilbertF j` only depends on the `j` low (two's-complement) bits of its
arguments: the rotations and bit-tests of later iterations never look higher. -/
theorem hilbertF_congr (j : Nat) : ∀ x y u v : Int,
    x % ((2 ^ j : Nat) : Int) = u % ((2 ^ j : Nat) : Int) →
    y % ((2 ^ j : Nat) : Int) = v % ((2 ^ j : Nat) : Int) →
    hilbertF j x y = hilbertF j u v := by
  induction j with
  | zero => intro x y u v _ _; rfl
  | succ j ih =>
    intro x y u v hx hy
    have hdvd : ((2 ^ j : Nat) : Int) ∣ ((2 ^ (j + 1) : Nat) : Int) := by
      exact_mod_cast (pow_dvd_pow 2 (Nat.le_succ j) : (2:Nat) ^ j ∣ 2 ^ (j + 1))
    have hxj : x % ((2 ^ j : Nat) : Int) = u % ((2 ^ j : Nat) : Int) := by
      rw [← Int.emod_emod_of_dvd x hdvd, ← Int.emod_emod_of_dvd u hdvd, hx]
    have hyj : y % ((2 ^ j : Nat) : Int) = v % ((2 ^ j : Nat) : Int) := by
      rw [← Int.emod_emod_of_dvd y hdvd, ← Int.emod_emod_of_dvd v hdvd, hy]
    have hbx : bitF x j = bitF u j := bitF_congr j hx
    have hby : bitF y j = bitF v j := bitF_congr j hy
    show 2 ^ j * 2 ^ j * ((3 * bitF x j) ^^^ bitF y j)
          + hilbertF j (rotate (2 ^ j) x y (bitF x j : Int) (bitF y j : Int)).1
            (rotate (2 ^ j) x y (bitF x j : Int) (bitF y j : Int)).2
        = 2 ^ j * 2 ^ j * ((3 * bitF u j) ^^^ bitF v j)
          + hilbertF j (rotate (2 ^ j) u v (bitF u j : Int) (bitF v j : Int)).1
            (rotate (2 ^ j) u v (bitF u j : Int) (bitF v j : Int)).2
    rw [← hbx, ← hby]
    congr 1
    unfold rotate
    split
    · split
      · exact ih _ _ _ _ (emod_sub_congr _ hyj) (emod_sub_congr _ hxj)
      · exact ih _ _ _ _ hyj hxj
    · exact ih _ _ _ _ hxj hyj

theorem bitF_le_one (x : Int) (j : Nat) : bitF x j ≤ 1 := by
  unfold bitF
  split <;> omega

/-- The forward transform always lands strictly below `4 ^ j`: each of the
`j` iterations contributes at most `3 * 4 ^ i`. -/
theorem hilbertF_lt (j : Nat) : ∀ x y : Int, hilbertF j x y < 4 ^ j := by
  induction j with
  | zero => intro x y; simp [hilbertF]
  | succ j ih =>
    intro x y
    show 2 ^ j * 2 ^ j * ((3 * bitF x j) ^^^ bitF y j)
          + hilbertF j (rotate (2 ^ j) x y (bitF x j : Int) (bitF y j : Int)).1
            (rotate (2 ^ j) x y (bitF x j : Int) (bitF y j : Int)).2
        < 4 ^ (j + 1)
    have h4 : (2:Nat) ^ j * 2 ^ j = 4 ^ j := by
      rw [← Nat.mul_pow]
    have ht : (3 * bitF x j) ^^^ bitF y j ≤ 3 := by
      have hx := bitF_le_one x j
      have hy := bitF_le_one y j
      interval_cases h1 : bitF x j <;> interval_cases h2 : bitF y j <;> decide
    have hrec := ih (rotate (2 ^ j) x y (bitF x j : Int) (bitF y j : Int)).1
      (rotate (2 ^ j) x y (bitF x j : Int) (bitF y j : Int)).2
    calc 2 ^ j * 2 ^ j * ((3 * bitF x j) ^^^ bitF y j)
          + hilbertF j (rotate (2 ^ j) x y (bitF x j : Int) (bitF y j : Int)).1
            (rotate (2 ^ j) x y (bitF x j : Int) (bitF y j : Int)).2
        < 4 ^ j * ((3 * bitF x j) ^^^ bitF y j) + 4 ^ j := by rw [h4]; omega
      _ ≤ 4 ^ j * 3 + 4 ^ j := by
          have := Nat.mul_le_mul_left (4 ^ j) ht
          omega
      _ = 4 ^ (j + 1) := by ring

theorem rxOf_eq (h : Nat) : rxOf h = h / 2 % 2 := by
  rw [rxOf, one_and_eq_mod, Nat.shiftRight_one]

theorem ryOf_eq (h : Nat) : ryOf h = (h + h / 2 % 2) % 2 := by
  rw [ryOf, one_and_eq_mod, Nat.xor_mod_two_eq, rxOf_eq]

theorem rxOf_le_one (h : Nat) : rxOf h ≤ 1 := by
  rw [rxOf_eq]
  omega

theorem ryOf_le_one (h : Nat) : ryOf h ≤ 1 := by
  rw [ryOf_eq]
  omega

/-- One decoder step only depends on the two low bits of the hashcode. -/
theorem hilbertStep_congr (L : Nat) (p : Int × Int) {h h2 : Nat}
    (hmod : h % 4 = h2 % 4) : hilbertStep L p h = hilbertStep L p h2 := by
  have hrx : rxOf h = rxOf h2 := by
    rw [rxOf_eq, rxOf_eq]
    omega
  have hry : ryOf h = ryOf h2 := by
    rw [ryOf_eq, ryOf_eq]
    omega
  rw [hilbertStep, hilbertStep, hrx, hry]

/-- `hilbertD j` only depends on the `2 j` low bits of the hashcode. -/
theorem hilbertD_mod (j : Nat) : ∀ (L : Nat) (p : Int × Int) (h : Nat),
    hilbertD j L p (h % 4 ^ j) = hilbertD j L p h := by
  induction j with
  | zero => intro L p h; rfl
  | succ j ih =>
    intro L p h
    show hilbertD j (2 * L) (hilbertStep L p (h % 4 ^ (j + 1))) ((h % 4 ^ (j + 1)) >>> 2)
        = hilbertD j (2 * L) (hilbertStep L p h) (h >>> 2)
    have hstep : hilbertStep L p (h % 4 ^ (j + 1)) = hilbertStep L p h :=
      hilbertStep_congr _ _ (Nat.mod_mod_of_dvd h (dvd_pow_self 4 (Nat.succ_ne_zero j)))
    have hsh : (h % 4 ^ (j + 1)) >>> 2 = (h >>> 2) % 4 ^ j := by
      rw [Nat.shiftRight_eq_div_pow, Nat.shiftRight_eq_div_pow]
      rw [show (2:Nat) ^ 2 = 4 from rfl, pow_succ, mul_comm ((4:Nat) ^ j) 4]
      exact Nat.mod_mul_right_div_self h 4 (4 ^ j)
    rw [hstep, hsh, ih]

theorem hilbertD_peel (j : Nat) : ∀ (L : Nat) (p : Int × Int) (h : Nat),
    hilbertD (j + 1) L p h
      = hilbertStep (2 ^ j * L) (hilbertD j L p h) (h >>> (2 * j)) := by
  induction j with
  | zero => intro L p h; simp [hilbertD]
  | succ j ih =>
    intro L p h
    show hilbertD (j + 1) (2 * L) (hilbertStep L p h) (h >>> 2)
      = hilbertStep (2 ^ (j + 1) * L) (hilbertD (j + 1) L p h) (h >>> (2 * (j + 1)))
    rw [ih (2 * L) (hilbertStep L p h) (h >>> 2)]
    have h1 : 2 ^ j * (2 * L) = 2 ^ (j + 1) * L := by ring
    have h2 : h >>> 2 >>> (2 * j) = h >>> (2 * (j + 1)) := by
      rw [show 2 * (j + 1) = 2 + 2 * j by ring, Nat.shiftRight_add]
    rw [h1, h2]
    rfl

/-! The decoder step at each of the four concrete two-bit codes. -/

theorem hilbertStep_t0 (L : Nat) (p : Int × Int) : hilbertStep L p 0 = (p.2, p.1) := by
  simp [hilbertStep, rxOf, ryOf, rotate]

theorem hilbertStep_t1 (L : Nat) (p : Int × Int) : hilbertStep L p 1 = (p.1, p.2 + L) := by
  have h1 : rxOf 1 = 0 := by decide
  have h2 : ryOf 1 = 1 := by decide
  simp [hilbertStep, h1, h2, rotate]

theorem hilbertStep_t2 (L : Nat) (p : Int × Int) :
    hilbertStep L p 2 = (p.1 + L, p.2 + L) := by
  have h1 : rxOf 2 = 1 := by decide
  have h2 : ryOf 2 = 1 := by decide
  simp [hilbertStep, h1, h2, rotate]

theorem hilbertStep_t3 (L : Nat) (p : Int × Int) :
    hilbertStep L p 3 = ((L : Int) - 1 - p.2 + L, (L : Int) - 1 - p.1) := by
  have h1 : rxOf 3 = 1 := by decide
  have h2 : ryOf 3 = 0 := by decide
  simp [hilbertStep, h1, h2, rotate]

/-- One decoder step stays inside the doubled sub-square. -/
theorem hilbertStep_range (L : Nat) (x y : Int) (h : Nat) (hL : 0 < L)
    (hx0 : 0 ≤ x) (hxL : x < (L : Int)) (hy0 : 0 ≤ y) (hyL : y < (L : Int)) :
    0 ≤ (hilbertStep L (x, y) h).1 ∧ (hilbertStep L (x, y) h).1 < ((2 * L : Nat) : Int) ∧
    0 ≤ (hilbertStep L (x, y) h).2 ∧ (hilbertStep L (x, y) h).2 < ((2 * L : Nat) : Int) := by
  have hrx := rxOf_le_one h
  have hry := ryOf_le_one h
  rcases (by omega : rxOf h = 0 ∨ rxOf h = 1) with hrx1 | hrx1 <;>
    rcases (by omega : ryOf h = 0 ∨ ryOf h = 1) with hry1 | hry1 <;>
      simp only [hilbertStep, hrx1, hry1, rotate, Nat.cast_zero, Nat.cast_one] <;>
        norm_num <;> push_cast <;> omega

/-- The decoder keeps its cell inside the growing sub-square: starting from a
point of `[0, L)²` it ends in `[0, 2 ^ j * L)²`. -/
theorem hilbertD_range (j : Nat) : ∀ (L : Nat) (x y : Int) (h : Nat), 0 < L →
    0 ≤ x → x < (L : Int) → 0 ≤ y → y < (L : Int) →
    0 ≤ (hilbertD j L (x, y) h).1 ∧ (hilbertD j L (x, y) h).1 < ((2 ^ j * L : Nat) : Int) ∧
    0 ≤ (hilbertD j L (x, y) h).2 ∧ (hilbertD j L (x, y) h).2 < ((2 ^ j * L : Nat) : Int) := by
  induction j with
  | zero =>
    intro L x y h hL hx0 hxL hy0 hyL
    simp only [hilbertD, one_mul, pow_zero]
    exact ⟨hx0, hxL, hy0, hyL⟩
  | succ j ih =>
    intro L x y h hL hx0 hxL hy0 hyL
    have hrx := rxOf_le_one h
    have hry := ryOf_le_one h
    have hq := hilbertStep_range L x y h hL hx0 hxL hy0 hyL
    show 0 ≤ (hilbertD j (2 * L) (hilbertStep L (x, y) h) (h >>> 2)).1 ∧ _
    obtain ⟨h1, h2, h3, h4⟩ := hq
    have := ih (2 * L) (hilbertStep L (x, y) h).1 (hilbertStep L (x, y) h).2 (h >>> 2)
      (by omega) h1 h2 h3 h4
    have hpow : (2:Nat) ^ j * (2 * L) = 2 ^ (j + 1) * L := by ring
    rw [hpow] at this
    simpa using this

/-! ## The round trip on a power-of-two grid -/

theorem hilbertF_succ (j : Nat) (x y : Int) :
    hilbertF (j + 1) x y
      = 2 ^ j * 2 ^ j * ((3 * bitF x j) ^^^ bitF y j)
        + hilbertF j (rotate (2 ^ j) x y (bitF x j : Int) (bitF y j : Int)).1
          (rotate (2 ^ j) x y (bitF x j : Int) (bitF y j : Int)).2 := rfl

theorem decomp_mod (j t h2 : Nat) (hlt : h2 < 4 ^ j) :
    (2 ^ j * 2 ^ j * t + h2) % 4 ^ j = h2 := by
  rw [show (2:Nat) ^ j * 2 ^ j = 4 ^ j by rw [← Nat.mul_pow], Nat.mul_add_mod,
    Nat.mod_eq_of_lt hlt]

theorem decomp_shift (j t h2 : Nat) (hlt : h2 < 4 ^ j) :
    (2 ^ j * 2 ^ j * t + h2) >>> (2 * j) = t := by
  rw [Nat.shiftRight_eq_div_pow, show (2:Nat) ^ (2 * j) = 4 ^ j by rw [pow_mul]; norm_num,
    show (2:Nat) ^ j * 2 ^ j = 4 ^ j by rw [← Nat.mul_pow],
    Nat.mul_add_div (Nat.pos_pow_of_pos j (by omega)), Nat.div_eq_of_lt hlt, Nat.add_zero]

/-- Whether Python's `(x & lvl) > 0` fires, for `0 ≤ x < 2 lvl`, is exactly
whether `lvl ≤ x`. -/
theorem bitF_of_range (x : Int) (j : Nat) (hx0 : 0 ≤ x)
    (hx1 : x < ((2 ^ (j + 1) : Nat) : Int)) :
    (((2 ^ j : Nat) : Int) ≤ x ∧ bitF x j = 1)
      ∨ (x < ((2 ^ j : Nat) : Int) ∧ bitF x j = 0) := by
  have hx2 : x % ((2 ^ (j + 1) : Nat) : Int) = x := Int.emod_eq_of_lt hx0 hx1
  unfold bitF
  by_cases hc : 0 < Int.land x ((2 ^ j : Nat) : Int)
  · left
    have := (land_pos_iff x j).mp hc
    rw [hx2] at this
    exact ⟨this, if_pos hc⟩
  · right
    have hnot : ¬ ((2 ^ j : Nat) : Int) ≤ x % ((2 ^ (j + 1) : Nat) : Int) := fun hcon =>
      hc ((land_pos_iff x j).mpr hcon)
    rw [hx2] at hnot
    exact ⟨by omega, if_neg hc⟩

/-- Core round trip of the Hilbert transform: running the `_hash2xy` loop on
`hilbertF j x y` recovers `(x, y)`, for every cell of the `2 ^ j`-grid. -/
theorem hilbert_roundtrip (j : Nat) : ∀ x y : Int,
    0 ≤ x → x < ((2 ^ j : Nat) : Int) → 0 ≤ y → y < ((2 ^ j : Nat) : Int) →
    hilbertD j 1 (0, 0) (hilbertF j x y) = (x, y) := by
  induction j with
  | zero =>
    intro x y hx0 hx1 hy0 hy1
    simp only [pow_zero, Nat.cast_one] at hx1 hy1
    have hx : x = 0 := by omega
    have hy : y = 0 := by omega
    subst hx hy
    rfl
  | succ j ih =>
    intro x y hx0 hx1 hy0 hy1
    have hL2 : ((2 ^ (j + 1) : Nat) : Int) = 2 * ((2 ^ j : Nat) : Int) := by
      push_cast
      ring
    have hLpos : (0:Int) < ((2 ^ j : Nat) : Int) := by
      exact_mod_cast Nat.two_pow_pos j
    rcases bitF_of_range x j hx0 hx1 with ⟨hxge, hbx⟩ | ⟨hxlt, hbx⟩ <;>
      rcases bitF_of_range y j hy0 hy1 with ⟨hyge, hby⟩ | ⟨hylt, hby⟩
    -- rx = 1, ry = 1 : no rotation, both offsets subtracted
    · rw [hilbertF_succ, hbx, hby]
      have hrot : rotate (2 ^ j) x y ((1:Nat) : Int) ((1:Nat) : Int) = (x, y) := by
        simp [rotate]
      rw [hrot]
      dsimp only
      have ht : (3 * 1) ^^^ 1 = 2 := by decide
      rw [ht]
      have hcong : hilbertF j x y = hilbertF j (x - ((2 ^ j : Nat) : Int))
          (y - ((2 ^ j : Nat) : Int)) := by
        apply hilbertF_congr <;> rw [Int.emod_sub_cancel]
      rw [hcong]
      have hlt := hilbertF_lt j (x - ((2 ^ j : Nat) : Int)) (y - ((2 ^ j : Nat) : Int))
      rw [hilbertD_peel, ← hilbertD_mod j 1 (0, 0), decomp_mod j 2 _ hlt,
        decomp_shift j 2 _ hlt,
        ih (x - ((2 ^ j : Nat) : Int)) (y - ((2 ^ j : Nat) : Int))
          (by omega) (by omega) (by omega) (by omega),
        Nat.mul_one, hilbertStep_t2]
      dsimp only
      rw [Prod.mk.injEq]
      constructor <;> ring
    -- rx = 1, ry = 0 : reflect and swap
    · rw [hilbertF_succ, hbx, hby]
      have hrot : rotate (2 ^ j) x y ((1:Nat) : Int) ((0:Nat) : Int)
          = (((2 ^ j : Nat) : Int) - 1 - y, ((2 ^ j : Nat) : Int) - 1 - x) := by
        simp [rotate]
      rw [hrot]
      dsimp only
      have ht : (3 * 1) ^^^ 0 = 3 := by decide
      rw [ht]
      have hcong : hilbertF j (((2 ^ j : Nat) : Int) - 1 - y) (((2 ^ j : Nat) : Int) - 1 - x)
          = hilbertF j (((2 ^ j : Nat) : Int) - 1 - y)
              (2 * ((2 ^ j : Nat) : Int) - 1 - x) := by
        apply hilbertF_congr
        · rfl
        · rw [show ((2 ^ j : Nat) : Int) - 1 - x
                = (2 * ((2 ^ j : Nat) : Int) - 1 - x) - ((2 ^ j : Nat) : Int) by ring,
            Int.emod_sub_cancel]
      rw [hcong]
      have hlt := hilbertF_lt j (((2 ^ j : Nat) : Int) - 1 - y)
        (2 * ((2 ^ j : Nat) : Int) - 1 - x)
      rw [hilbertD_peel, ← hilbertD_mod j 1 (0, 0), decomp_mod j 3 _ hlt,
        decomp_shift j 3 _ hlt,
        ih (((2 ^ j : Nat) : Int) - 1 - y) (2 * ((2 ^ j : Nat) : Int) - 1 - x)
          (by omega) (by omega) (by omega) (by omega),
        Nat.mul_one, hilbertStep_t3]
      dsimp only
      rw [Prod.mk.injEq]
      constructor <;> ring
    -- rx = 0, ry = 1 : no rotation, y offset subtracted
    · rw [hilbertF_succ, hbx, hby]
      have hrot : rotate (2 ^ j) x y ((0:Nat) : Int) ((1:Nat) : Int) = (x, y) := by
        simp [rotate]
      rw [hrot]
      dsimp only
      have ht : (3 * 0) ^^^ 1 = 1 := by decide
      rw [ht]
      have hcong : hilbertF j x y = hilbertF j x (y - ((2 ^ j : Nat) : Int)) := by
        apply hilbertF_congr
        · rfl
        · rw [Int.emod_sub_cancel]
      rw [hcong]
      have hlt := hilbertF_lt j x (y - ((2 ^ j : Nat) : Int))
      rw [hilbertD_peel, ← hilbertD_mod j 1 (0, 0), decomp_mod j 1 _ hlt,
        decomp_shift j 1 _ hlt,
        ih x (y - ((2 ^ j : Nat) : Int)) (by omega) (by omega) (by omega) (by omega),
        Nat.mul_one, hilbertStep_t1]
      dsimp only
      rw [Prod.mk.injEq]
      constructor <;> ring
    -- rx = 0, ry = 0 : swap only
    · rw [hilbertF_succ, hbx, hby]
      have hrot : rotate (2 ^ j) x y ((0:Nat) : Int) ((0:Nat) : Int) = (y, x) := by
        simp [rotate]
      rw [hrot]
      dsimp only
      have ht : (3 * 0) ^^^ 0 = 0 := by decide
      rw [ht]
      have hlt := hilbertF_lt j y x
      rw [hilbertD_peel, ← hilbertD_mod j 1 (0, 0), decomp_mod j 0 _ hlt,
        decomp_shift j 0 _ hlt,
        ih y x (by omega) (by omega) (by omega) (by omega),
        Nat.mul_one, hilbertStep_t0]

/-! ## Totality and range of the forward transform (arbitrary `dim`) -/

theorem t3_le (rx ry : Nat) (h1 : rx ≤ 1) (h2 : ry ≤ 1) : (3 * rx) ^^^ ry ≤ 3 := by
  interval_cases rx <;> interval_cases ry <;> decide

/-- Each pass of the `_xy2hash` loop adds at most `3 * lvl * lvl`, and the
geometric sum over the halving levels stays below `4 * lvl * lvl`. -/
theorem xy2hashLoop_bound (x y : Int) (lvl d : Nat) :
    0 < lvl → xy2hashLoop x y lvl d ≤ d + 4 * lvl * lvl - 1 := by
  induction x, y, lvl, d using xy2hashLoop.induct with
  | case1 x y lvl d hpos rx ry q ih =>
    intro _
    rw [xy2hashLoop, if_pos hpos]
    show xy2hashLoop q.1 q.2 (lvl >>> 1) (d + lvl * lvl * ((3 * rx) ^^^ ry))
        ≤ d + 4 * lvl * lvl - 1
    have hrx : rx ≤ 1 := by
      unfold rx
      split <;> omega
    have hry : ry ≤ 1 := by
      unfold ry
      split <;> omega
    have ht := t3_le rx ry hrx hry
    have hm : lvl * lvl * ((3 * rx) ^^^ ry) ≤ lvl * lvl * 3 :=
      Nat.mul_le_mul_left _ ht
    have hsh : lvl >>> 1 = lvl / 2 := Nat.shiftRight_one lvl
    rcases Nat.eq_zero_or_pos (lvl / 2) with hz | hp
    · have hlvl : lvl = 1 := by omega
      subst hlvl
      rw [hsh, hz, xy2hashLoop, if_neg (by omega)]
      omega
    · rw [hsh] at ih ⊢
      have hb := ih (by omega)
      have h2 : 2 * (lvl / 2) ≤ lvl := by omega
      have h4 : 4 * ((lvl / 2) * (lvl / 2)) ≤ lvl * lvl := by nlinarith
      rw [show 4 * (lvl / 2) * (lvl / 2) = 4 * ((lvl / 2) * (lvl / 2)) from by ring] at hb
      rw [show 4 * lvl * lvl = 4 * (lvl * lvl) from by ring]
      omega
  | case2 x y lvl d hneg =>
    intro hcon
    exact absurd hcon hneg

/-- The forward transform is total and returns a value `< dim²` for every
input (no precondition on `x`, `y`, and `dim` need not be a power of two). -/
theorem xy2hash_lt (x y : Int) (dim : Nat) (hdim : 1 ≤ dim) :
    xy2hash x y dim < dim * dim := by
  rw [xy2hash]
  have hpos : 0 < dim * dim := Nat.mul_pos (by omega) (by omega)
  rcases Nat.eq_zero_or_pos (dim >>> 1) with hz | hp
  · rw [hz, xy2hashLoop, if_neg (by omega)]
    omega
  · have hb := xy2hashLoop_bound x y (dim >>> 1) 0 hp
    have hsh : dim >>> 1 = dim / 2 := Nat.shiftRight_one dim
    rw [hsh] at hb
    have h2 : 2 * (dim / 2) ≤ dim := by omega
    have h4 : 4 * ((dim / 2) * (dim / 2)) ≤ dim * dim := by nlinarith
    rw [show 4 * (dim / 2) * (dim / 2) = 4 * ((dim / 2) * (dim / 2)) from by ring] at hb
    rw [hsh]
    omega

/-! ## The two directions of the bijection, on the source functions -/

/-- Forward-then-inverse round trip, phrased on the source's `_xy2hash` and
`_hash2xy` (the latter's assertion passes). -/
theorem hash2xy_xy2hash (k : Nat) (x y : Int) (hx0 : 0 ≤ x)
    (hx1 : x < ((2 ^ k : Nat) : Int)) (hy0 : 0 ≤ y) (hy1 : y < ((2 ^ k : Nat) : Int)) :
    hash2xy (xy2hash x y (2 ^ k)) (2 ^ k) = some (x, y) := by
  have hv : xy2hash x y (2 ^ k) = hilbertF k x y := xy2hash_pow k x y
  have hlt : hilbertF k x y < 4 ^ k := hilbertF_lt k x y
  have h4 : (2:Nat) ^ k * 2 ^ k = 4 ^ k := by rw [← Nat.mul_pow]
  rw [hash2xy, if_pos]
  · rw [hash2xyCell_pow, hv, hilbert_roundtrip k x y hx0 hx1 hy0 hy1]
  · rw [hv]
    have : hilbertF k x y ≤ 2 ^ k * 2 ^ k - 1 := by omega
    have hcast : ((hilbertF k x y : Nat) : Int) ≤ ((2 ^ k * 2 ^ k - 1 : Nat) : Int) := by
      exact_mod_cast this
    have hone : (1:Nat) ≤ 2 ^ k * 2 ^ k :=
      Nat.mul_pos (Nat.two_pow_pos k) (Nat.two_pow_pos k)
    push_cast [hone] at hcast
    push_cast
    omega

/-- The cell `_hash2xy` computes always lies in `[0, dim)²` (on a
power-of-two grid). -/
theorem hash2xyCell_range (k : Nat) (i : Nat) :
    0 ≤ (hash2xyCell i (2 ^ k)).1 ∧ (hash2xyCell i (2 ^ k)).1 < ((2 ^ k : Nat) : Int) ∧
    0 ≤ (hash2xyCell i (2 ^ k)).2 ∧ (hash2xyCell i (2 ^ k)).2 < ((2 ^ k : Nat) : Int) := by
  rw [hash2xyCell_pow]
  have := hilbertD_range k 1 0 0 i (by omega) (le_refl 0) (by norm_num) (le_refl 0) (by norm_num)
  simpa using this

/-- Inverse-then-forward round trip: `_xy2hash` applied to the cell decoded
from any index in `[0, dim²)` gives back that index.  Proved by a counting
argument from `hash2xy_xy2hash`: the decoder is surjective onto the grid, and
both sides are finite of equal cardinality. -/
theorem xy2hash_hash2xyCell (k : Nat) (h : Nat) (hlt : h < 2 ^ k * 2 ^ k) :
    xy2hash (hash2xyCell h (2 ^ k)).1 (hash2xyCell h (2 ^ k)).2 (2 ^ k) = h := by
  have h4 : (2:Nat) ^ k * 2 ^ k = 4 ^ k := by rw [← Nat.mul_pow]
  let F : Fin (2 ^ k) × Fin (2 ^ k) → Fin (4 ^ k) := fun p =>
    ⟨xy2hash ((p.1 : Nat) : Int) ((p.2 : Nat) : Int) (2 ^ k), by
      rw [xy2hash_pow]
      exact hilbertF_lt k _ _⟩
  let G : Fin (4 ^ k) → Fin (2 ^ k) × Fin (2 ^ k) := fun i =>
    (⟨(hash2xyCell i (2 ^ k)).1.toNat, by
        have := hash2xyCell_range k i
        omega⟩,
     ⟨(hash2xyCell i (2 ^ k)).2.toNat, by
        have := hash2xyCell_range k i
        omega⟩)
  have hGF : ∀ p, G (F p) = p := by
    intro p
    have hx1 : (((p.1 : Nat) : Int)) < ((2 ^ k : Nat) : Int) := by exact_mod_cast p.1.isLt
    have hy1 : (((p.2 : Nat) : Int)) < ((2 ^ k : Nat) : Int) := by exact_mod_cast p.2.isLt
    have hrt := hilbert_roundtrip k ((p.1 : Nat) : Int) ((p.2 : Nat) : Int)
      (Int.natCast_nonneg _) hx1 (Int.natCast_nonneg _) hy1
    have hcell : hash2xyCell (xy2hash ((p.1 : Nat) : Int) ((p.2 : Nat) : Int) (2 ^ k)) (2 ^ k)
        = (((p.1 : Nat) : Int), ((p.2 : Nat) : Int)) := by
      rw [hash2xyCell_pow, xy2hash_pow, hrt]
    apply Prod.ext <;> apply Fin.ext <;> simp [G, F, hcell]
  have hsurj : Function.Surjective G := fun p => ⟨F p, hGF p⟩
  have hcard : Fintype.card (Fin (4 ^ k)) = Fintype.card (Fin (2 ^ k) × Fin (2 ^ k)) := by
    simp [← h4]
  have hbij : Function.Bijective G :=
    (Fintype.bijective_iff_surjective_and_card G).mpr ⟨hsurj, hcard⟩
  have hFG : F (G ⟨h, by omega⟩) = ⟨h, by omega⟩ := by
    apply hbij.1
    exact hGF (G ⟨h, by omega⟩)
  have hval := congrArg Fin.val hFG
  have hr := hash2xyCell_range k h
  simp only [F, G] at hval
  rw [Int.toNat_of_nonneg hr.1, Int.toNat_of_nonneg hr.2.2.1] at hval
  exact hval

/-! ## Codec lemmas -/

theorem hash2xy_of_lt (h dim : Nat) (hlt : h < dim * dim) :
    hash2xy h dim = some (hash2xyCell h dim) := by
  rw [hash2xy, if_pos]
  have hcast : ((h : Nat) : Int) < ((dim * dim : Nat) : Int) := by exact_mod_cast hlt
  push_cast at hcast
  omega

theorem decodeInt_nil (bpc : Nat) : decodeInt [] bpc = 0 := rfl

theorem decodeInt_append (l : List Nat) (c bpc : Nat) :
    decodeInt (l ++ [c]) bpc = decodeInt l bpc * 2 ^ bpc + c := by
  rw [decodeInt, decodeInt, List.foldl_append]
  rfl

/-- Left-padding with the zero character does not change the decoded value. -/
theorem decodeInt_replicate_zero (k : Nat) : ∀ (l : List Nat) (bpc : Nat),
    decodeInt (List.replicate k 0 ++ l) bpc = decodeInt l bpc := by
  induction k with
  | zero => intro l bpc; rfl
  | succ k ih =>
    intro l bpc
    rw [List.replicate_succ, List.cons_append]
    show List.foldl (fun acc c => acc * 2 ^ bpc + c) (0 * 2 ^ bpc + 0)
        (List.replicate k 0 ++ l) = decodeInt l bpc
    rw [Nat.zero_mul, Nat.add_zero]
    exact ih l bpc

/-- The codec round trip required by the spec:
`decode_int(encode_int(v, b)) == v`. -/
theorem decodeInt_encodeInt (v bpc : Nat) (hbpc : 0 < bpc) :
    decodeInt (encodeInt v bpc) bpc = v := by
  induction v using Nat.strong_induction_on with
  | _ v ih =>
    rw [encodeInt]
    rcases Nat.eq_zero_or_pos v with hz | hp
    · rw [if_neg (by omega)]
      rw [hz]
      rfl
    · rw [if_pos ⟨hp, hbpc⟩, decodeInt_append]
      have hdiv : v >>> bpc = v / 2 ^ bpc := Nat.shiftRight_eq_div_pow v bpc
      have hlt : v >>> bpc < v := by
        rw [hdiv]
        exact Nat.div_lt_self hp (Nat.one_lt_two_pow_iff.mpr (by omega))
      rw [ih (v >>> bpc) hlt, hdiv]
      have hdm := Nat.div_add_mod v (2 ^ bpc)
      rw [Nat.mul_comm (2 ^ bpc) (v / 2 ^ bpc)] at hdm
      omega

/-- The shortest big-endian representation of `v < 2 ^ (b * p)` takes at most
`p` characters. -/
theorem encodeInt_length_le (bpc : Nat) : ∀ (p v : Nat), v < 2 ^ (bpc * p) →
    (encodeInt v bpc).length ≤ p := by
  intro p
  induction p with
  | zero =>
    intro v hv
    simp only [Nat.mul_zero, pow_zero, Nat.lt_one_iff] at hv
    rw [hv, encodeInt, if_neg (by omega)]
    simp
  | succ p ih =>
    intro v hv
    rw [encodeInt]
    split
    · rename_i hcond
      rw [List.length_append, List.length_singleton]
      have hrec : v >>> bpc < 2 ^ (bpc * p) := by
        rw [Nat.shiftRight_eq_div_pow]
        apply Nat.div_lt_of_lt_mul
        rw [← pow_add, show bpc + bpc * p = bpc * (p + 1) by ring]
        exact hv
      have := ih (v >>> bpc) hrec
      omega
    · simp

/-- Decoding an `rjust`-padded `encode_int` output recovers the value
(the spec's required codec property). -/
theorem decodeInt_rjust (v bpc w : Nat) (hbpc : 0 < bpc) :
    decodeInt (rjust (encodeInt v bpc) w) bpc = v := by
  rw [rjust, decodeInt_replicate_zero, decodeInt_encodeInt v bpc hbpc]

theorem rjust_length (l : List Nat) (w : Nat) (hw : l.length ≤ w) :
    (rjust l w).length = w := by
  rw [rjust, List.length_append, List.length_replicate]
  omega

/-- A code over the `2 ^ b`-character alphabet decodes below `2 ^ (b·len)`. -/
theorem decodeInt_lt (bpc : Nat) (code : List Nat) (hc : ∀ c ∈ code, c < 2 ^ bpc) :
    decodeInt code bpc < 2 ^ (bpc * code.length) := by
  induction code using List.reverseRecOn with
  | nil => simp [decodeInt_nil]
  | append_singleton l c ih =>
    rw [decodeInt_append]
    have hc2 : c < 2 ^ bpc := hc c (by simp)
    have hl : decodeInt l bpc < 2 ^ (bpc * l.length) := by
      apply ih
      intro d hd
      exact hc d (by simp [hd])
    rw [List.length_append, List.length_singleton,
      show bpc * (l.length + 1) = bpc * l.length + bpc by ring, pow_add]
    have key : (decodeInt l bpc + 1) * 2 ^ bpc ≤ 2 ^ (bpc * l.length) * 2 ^ bpc :=
      Nat.mul_le_mul_right _ (by omega)
    calc decodeInt l bpc * 2 ^ bpc + c
        < (decodeInt l bpc + 1) * 2 ^ bpc := by
          have hexp : (decodeInt l bpc + 1) * 2 ^ bpc
              = decodeInt l bpc * 2 ^ bpc + 2 ^ bpc := by ring
          omega
      _ ≤ 2 ^ (bpc * l.length) * 2 ^ bpc := key

/-! ## Quantizer and error-margin helpers -/

theorem dimError_eq (level : Nat) :
    dimError level = (180 / 2 ^ level, 90 / 2 ^ level) := by
  unfold dimError
  rw [Nat.one_shiftLeft]
  push_cast
  rw [Prod.mk.injEq]
  constructor <;> ring

theorem xy2hash_one (x y : Int) : xy2hash x y 1 = 0 := by
  rw [xy2hash]
  show xy2hashLoop x y 0 0 = 0
  rw [xy2hashLoop, if_neg (by omega)]

theorem encodeInt_zero (bpc : Nat) : encodeInt 0 bpc = [] := by
  rw [encodeInt, if_neg (by omega)]

theorem hash2xyCell_one (h : Nat) : hash2xyCell h 1 = (0, 0) := by
  rw [hash2xyCell, hash2xyLoop, if_neg (by omega)]

/-! ## The claims -/

/-- **C1.** For every power-of-two `dim` and every grid cell `(x, y)` with
`0 ≤ x < dim` and `0 ≤ y < dim`, decoding the encoded curve index returns the
original cell: `_hash2xy(_xy2hash(x, y, dim), dim) == (x, y)` (and the
inverse transform's assertion passes, so it returns a value). -/
theorem hilbert_cell_roundtrip (k : Nat) (x y : Int) (hx0 : 0 ≤ x)
    (hx1 : x < ((2 ^ k : Nat) : Int)) (hy0 : 0 ≤ y)
    (hy1 : y < ((2 ^ k : Nat) : Int)) :
    hash2xy (xy2hash x y (2 ^ k)) (2 ^ k) = some (x, y) :=
  hash2xy_xy2hash k x y hx0 hx1 hy0 hy1

theorem hilbert_cell_roundtrip_check :
    hash2xy (xy2hash 2 1 (2 ^ 2)) (2 ^ 2) = some (2, 1) :=
  hilbert_cell_roundtrip 2 2 1 (by norm_num) (by norm_num) (by norm_num) (by norm_num)

/-- **C2.** For every power-of-two `dim` and every `index ∈ [0, dim²)`,
`_hash2xy` succeeds and re-encoding the decoded cell returns the original
index, so the transform is a total bijection on `[0, dim²)`. -/
theorem hilbert_index_roundtrip (k : Nat) (h : Nat) (hlt : h < 2 ^ k * 2 ^ k) :
    hash2xy h (2 ^ k) = some (hash2xyCell h (2 ^ k))
      ∧ xy2hash (hash2xyCell h (2 ^ k)).1 (hash2xyCell h (2 ^ k)).2 (2 ^ k) = h :=
  ⟨hash2xy_of_lt h (2 ^ k) hlt, xy2hash_hash2xyCell k h hlt⟩

theorem hilbert_index_roundtrip_check :
    hash2xy 7 (2 ^ 2) = some (hash2xyCell 7 (2 ^ 2))
      ∧ xy2hash (hash2xyCell 7 (2 ^ 2)).1 (hash2xyCell 7 (2 ^ 2)).2 (2 ^ 2) = 7 :=
  hilbert_index_roundtrip 2 7 (by norm_num)

/-- **C5.** For every `dim ≥ 1`, the forward quantizer computes
`x = floor((lng + 180) / 360 * dim)` and `y = floor((lat + 90) / 180 * dim)`;
for inputs strictly inside the open intervals the result lies in
`[0, dim)²`, while the maximal inputs `lng = 180`, `lat = 90` map to
`x = dim` / `y = dim`, one past the valid range. -/
theorem coord2int_spec (lng lat : ℚ) (dim : Nat) (hdim : 1 ≤ dim) :
    coord2int lng lat dim
        = some (⌊(lng + 180) / 360 * (dim : ℚ)⌋, ⌊(lat + 90) / 180 * (dim : ℚ)⌋)
    ∧ (-180 < lng → lng < 180 →
        0 ≤ ⌊(lng + 180) / 360 * (dim : ℚ)⌋ ∧ ⌊(lng + 180) / 360 * (dim : ℚ)⌋ < (dim : Int))
    ∧ (-90 < lat → lat < 90 →
        0 ≤ ⌊(lat + 90) / 180 * (dim : ℚ)⌋ ∧ ⌊(lat + 90) / 180 * (dim : ℚ)⌋ < (dim : Int))
    ∧ coord2int 180 90 dim = some ((dim : Int), (dim : Int)) := by
  have hD : (0:ℚ) < (dim : ℚ) := by
    have : (0:Nat) < dim := hdim
    exact_mod_cast this
  refine ⟨by rw [coord2int, if_pos hdim], fun hl hr => ⟨?_, ?_⟩, fun hl hr => ⟨?_, ?_⟩, ?_⟩
  · apply Int.le_floor.mpr
    push_cast
    exact mul_nonneg (div_nonneg (by linarith) (by norm_num)) (le_of_lt hD)
  · apply Int.floor_lt.mpr
    push_cast
    have h1 : (lng + 180) / 360 < 1 := (div_lt_one (by norm_num)).mpr (by linarith)
    calc (lng + 180) / 360 * (dim : ℚ) < 1 * (dim : ℚ) :=
          mul_lt_mul_of_pos_right h1 hD
      _ = (dim : ℚ) := one_mul _
  · apply Int.le_floor.mpr
    push_cast
    exact mul_nonneg (div_nonneg (by linarith) (by norm_num)) (le_of_lt hD)
  · apply Int.floor_lt.mpr
    push_cast
    have h1 : (lat + 90) / 180 < 1 := (div_lt_one (by norm_num)).mpr (by linarith)
    calc (lat + 90) / 180 * (dim : ℚ) < 1 * (dim : ℚ) :=
          mul_lt_mul_of_pos_right h1 hD
      _ = (dim : ℚ) := one_mul _
  · rw [coord2int, if_pos hdim]
    norm_num

theorem coord2int_spec_check :
    coord2int 0 0 4
        = some (⌊((0:ℚ) + 180) / 360 * ((4:Nat) : ℚ)⌋, ⌊((0:ℚ) + 90) / 180 * ((4:Nat) : ℚ)⌋)
    ∧ (-180 < (0:ℚ) → (0:ℚ) < 180 →
        0 ≤ ⌊((0:ℚ) + 180) / 360 * ((4:Nat) : ℚ)⌋
          ∧ ⌊((0:ℚ) + 180) / 360 * ((4:Nat) : ℚ)⌋ < ((4:Nat) : Int))
    ∧ (-90 < (0:ℚ) → (0:ℚ) < 90 →
        0 ≤ ⌊((0:ℚ) + 90) / 180 * ((4:Nat) : ℚ)⌋
          ∧ ⌊((0:ℚ) + 90) / 180 * ((4:Nat) : ℚ)⌋ < ((4:Nat) : Int))
    ∧ coord2int 180 90 4 = some (((4:Nat) : Int), ((4:Nat) : Int)) :=
  coord2int_spec 0 0 4 (by norm_num)

/-- **C6 (amended).** Only the inverse transform validates its precondition:
`_hash2xy` with `index ≥ dim²` fails its assertion and returns no result.
(The forward transform `_xy2hash` performs no such validation; see the
counterexample below.) -/
theorem hash2xy_validates (h dim : Nat) (hge : dim * dim ≤ h) :
    hash2xy h dim = none := by
  rw [hash2xy, if_neg]
  have hcast : ((dim * dim : Nat) : Int) ≤ ((h : Nat) : Int) := by exact_mod_cast hge
  push_cast at hcast
  omega

theorem hash2xy_validates_check : hash2xy 4 2 = none :=
  hash2xy_validates 4 2 (by norm_num)

/-- **C6 (counterexample).** The claim that the forward transform raises an
error when `x ≥ dim` is false: `_xy2hash(2, 0, 2)` has `x = dim = 2`, yet the
source contains no check and the call returns the result `0` (the same index
as the cell `(0, 0)`). -/
theorem xy2hash_skips_validation : xy2hash 2 0 2 = 0 := by
  rw [show (2:Nat) = 2 ^ 1 from rfl, xy2hash_pow]
  decide

/-- **C7 (amended).** `encode` rejects out-of-range longitude/latitude,
negative precision, and `bits_per_char ∉ {2, 4, 6}` before any computation,
returning no partial result — but every rejection raises the same plain
`AssertionError`; there are no distinguishable RangeError / InvalidArgument
kinds (see the counterexample below). -/
theorem encode_rejects_invalid (lng lat : ℚ) (p : Int) (bpc : Nat)
    (hbad : lng < -180 ∨ 180 < lng ∨ lat < -90 ∨ 90 < lat ∨ p < 0
      ∨ ¬(bpc = 2 ∨ bpc = 4 ∨ bpc = 6)) :
    encode lng lat p bpc = none := by
  rw [encode, if_neg]
  intro hc
  obtain ⟨c1, c2, c3, c4, c5, c6⟩ := hc
  rcases hbad with hb | hb | hb | hb | hb | hb
  · linarith
  · linarith
  · linarith
  · linarith
  · omega
  · exact hb c6

theorem encode_rejects_invalid_check : encode 200 0 10 6 = none :=
  encode_rejects_invalid 200 0 10 6 (Or.inr (Or.inl (by norm_num)))

/-- **C7 (counterexample).** The two rejections the claim calls RangeError
(`lng = -180.1`) and InvalidArgument (`bits_per_char = 5`) produce the very
same outcome — a bare `AssertionError` (`none` in this embedding) — so the
two error kinds are not distinguishable. -/
theorem encode_error_kinds_identical :
    encode (-1801/10) 0 10 6 = none ∧ encode 0 0 10 5 = none
      ∧ encode (-1801/10) 0 10 6 = encode 0 0 10 5 := by
  have h1 : encode (-1801/10) 0 10 6 = none := by
    rw [encode, if_neg]
    intro hc
    obtain ⟨c1, -⟩ := hc
    norm_num at c1
  have h2 : encode 0 0 10 5 = none := by
    rw [encode, if_neg]
    intro hc
    obtain ⟨-, -, -, -, -, c6⟩ := hc
    omega
  exact ⟨h1, h2, by rw [h1, h2]⟩

/-- **C8.** The error-margin calculator returns exactly
`(180 * (1 / 2^level), 90 * (1 / 2^level))`; at level 0 it returns
`(180, 90)`, and each component at `level + 1` is exactly half the
corresponding component at `level`. -/
theorem dimError_spec (level : Nat) :
    dimError level = (180 * (1 / 2 ^ level), 90 * (1 / 2 ^ level))
    ∧ dimError 0 = (180, 90)
    ∧ dimError (level + 1) = ((dimError level).1 / 2, (dimError level).2 / 2) := by
  refine ⟨?_, ?_, ?_⟩
  · rw [dimError_eq, Prod.mk.injEq]
    constructor <;> ring
  · rw [dimError_eq]
    norm_num
  · rw [dimError_eq, dimError_eq, Prod.mk.injEq]
    dsimp only
    constructor <;> (rw [pow_succ]; ring)

/-- **C9.** The forward transform is total on all integer inputs — even when
`x ≥ dim` or `y ≥ dim`, and even when `dim` is not a power of two — and the
(always non-negative, `Nat`-valued) result is strictly less than `dim²` for
every `dim ≥ 1`: the loop's contributions `3·lvl²` over the halving levels
sum to less than `dim²`. -/
theorem xy2hash_total_bound (x y : Int) (dim : Nat) (hdim : 1 ≤ dim) :
    xy2hash x y dim < dim * dim :=
  xy2hash_lt x y dim hdim

theorem xy2hash_total_bound_check : xy2hash 7 2 6 < 36 :=
  xy2hash_total_bound 7 2 6 (by norm_num)

/-- **C10.** At precision 0 the system degenerates to a single global cell:
for every valid coordinate and `bits_per_char ∈ {2, 4, 6}`,
`encode(lng, lat, 0, bpc)` returns the empty string, and
`decode_exactly("", bpc)` returns `(0.0, 0.0, 180.0, 90.0)`. -/
theorem precision_zero_degenerate (lng lat : ℚ) (bpc : Nat)
    (h1 : -180 ≤ lng) (h2 : lng ≤ 180) (h3 : -90 ≤ lat) (h4 : lat ≤ 90)
    (hbpc : bpc = 2 ∨ bpc = 4 ∨ bpc = 6) :
    encode lng lat 0 bpc = some [] ∧ decodeExactly [] bpc = some (0, 0, 180, 90) := by
  constructor
  · rw [encode, if_pos ⟨h1, h2, h3, h4, le_refl 0, hbpc⟩]
    simp only [Int.toNat_zero, Nat.zero_mul, Nat.zero_shiftRight, Nat.shiftLeft_zero]
    rw [coord2int, if_pos (le_refl 1)]
    dsimp only
    rw [xy2hash_one, encodeInt_zero, rjust]
    simp
  · rw [decodeExactly, if_pos hbpc]
    simp only [List.length_nil, Nat.zero_mul, Nat.zero_shiftRight, Nat.shiftLeft_zero]
    rw [show decodeInt [] bpc = 0 from rfl, hash2xy_of_lt 0 1 (by norm_num), hash2xyCell_one]
    dsimp only
    rw [int2coord, if_pos ⟨le_refl 1, by norm_num, by norm_num⟩]
    dsimp only
    rw [dimError_eq]
    norm_num

theorem precision_zero_degenerate_check :
    encode 0 0 0 2 = some [] ∧ decodeExactly [] 2 = some (0, 0, 180, 90) :=
  precision_zero_degenerate 0 0 2 (by norm_num) (by norm_num) (by norm_num) (by norm_num)
    (by norm_num)

/-- **C4.** For every code over the `2^bits_per_char`-character alphabet and
`bits_per_char ∈ {2, 4, 6}`, `decode_exactly` computes
`level = floor(len(code) * bits_per_char / 2)`, `dim = 2^level`, decodes the
code to a cell `(x, y)`, and returns `(lng + lng_err, lat + lat_err,
lng_err, lat_err)` where `lng = x / dim * 360 - 180` and
`lat = y / dim * 180 - 90` are the lower-left corner of the cell — i.e. the
reported position is the cell center, not the corner; `decode` returns the
first two components. -/
theorem decodeExactly_reports_center (code : List Nat) (bpc : Nat)
    (hbpc : bpc = 2 ∨ bpc = 4 ∨ bpc = 6) (hc : ∀ c ∈ code, c < 2 ^ bpc) :
    ∃ x y : Int,
      hash2xy (decodeInt code bpc) (2 ^ (code.length * bpc / 2)) = some (x, y)
      ∧ decodeExactly code bpc
          = some ((x : ℚ) / ((2 ^ (code.length * bpc / 2) : Nat) : ℚ) * 360 - 180
                    + 180 / 2 ^ (code.length * bpc / 2),
                  (y : ℚ) / ((2 ^ (code.length * bpc / 2) : Nat) : ℚ) * 180 - 90
                    + 90 / 2 ^ (code.length * bpc / 2),
                  180 / 2 ^ (code.length * bpc / 2),
                  90 / 2 ^ (code.length * bpc / 2))
      ∧ decode code bpc
          = some ((x : ℚ) / ((2 ^ (code.length * bpc / 2) : Nat) : ℚ) * 360 - 180
                    + 180 / 2 ^ (code.length * bpc / 2),
                  (y : ℚ) / ((2 ^ (code.length * bpc / 2) : Nat) : ℚ) * 180 - 90
                    + 90 / 2 ^ (code.length * bpc / 2)) := by
  have hbpc0 : 0 < bpc := by rcases hbpc with h | h | h <;> omega
  have hv : decodeInt code bpc < 2 ^ (bpc * code.length) := decodeInt_lt bpc code hc
  have heven : 2 * (code.length * bpc / 2) = code.length * bpc := by
    rcases hbpc with h | h | h <;> subst h <;> omega
  have hdd : 2 ^ (code.length * bpc / 2) * 2 ^ (code.length * bpc / 2)
      = 2 ^ (code.length * bpc) := by
    rw [← pow_add]
    congr 1
    omega
  have hvlt : decodeInt code bpc
      < 2 ^ (code.length * bpc / 2) * 2 ^ (code.length * bpc / 2) := by
    rw [hdd, show code.length * bpc = bpc * code.length from Nat.mul_comm _ _]
    exact hv
  have h2xy := hash2xy_of_lt (decodeInt code bpc) (2 ^ (code.length * bpc / 2)) hvlt
  have hrange := hash2xyCell_range (code.length * bpc / 2) (decodeInt code bpc)
  refine ⟨(hash2xyCell (decodeInt code bpc) (2 ^ (code.length * bpc / 2))).1,
    (hash2xyCell (decodeInt code bpc) (2 ^ (code.length * bpc / 2))).2, h2xy, ?_, ?_⟩
  · rw [decodeExactly, if_pos hbpc]
    simp only [Nat.shiftRight_one, Nat.one_shiftLeft]
    rw [h2xy]
    dsimp only
    rw [int2coord, if_pos ⟨Nat.one_le_two_pow, hrange.2.1, hrange.2.2.2⟩]
    dsimp only
    rw [dimError_eq]
  · rw [decode, if_pos hbpc, decodeExactly, if_pos hbpc]
    simp only [Nat.shiftRight_one, Nat.one_shiftLeft]
    rw [h2xy]
    dsimp only
    rw [int2coord, if_pos ⟨Nat.one_le_two_pow, hrange.2.1, hrange.2.2.2⟩]
    dsimp only
    rw [dimError_eq]

theorem decodeExactly_reports_center_check :
    ∃ x y : Int,
      hash2xy (decodeInt [1, 2] 2) (2 ^ ([1, 2].length * 2 / 2)) = some (x, y)
      ∧ decodeExactly [1, 2] 2
          = some ((x : ℚ) / ((2 ^ ([1, 2].length * 2 / 2) : Nat) : ℚ) * 360 - 180
                    + 180 / 2 ^ ([1, 2].length * 2 / 2),
                  (y : ℚ) / ((2 ^ ([1, 2].length * 2 / 2) : Nat) : ℚ) * 180 - 90
                    + 90 / 2 ^ ([1, 2].length * 2 / 2),
                  180 / 2 ^ ([1, 2].length * 2 / 2),
                  90 / 2 ^ ([1, 2].length * 2 / 2))
      ∧ decode [1, 2] 2
          = some ((x : ℚ) / ((2 ^ ([1, 2].length * 2 / 2) : Nat) : ℚ) * 360 - 180
                    + 180 / 2 ^ ([1, 2].length * 2 / 2),
                  (y : ℚ) / ((2 ^ ([1, 2].length * 2 / 2) : Nat) : ℚ) * 180 - 90
                    + 90 / 2 ^ ([1, 2].length * 2 / 2)) :=
  decodeExactly_reports_center [1, 2] 2 (by norm_num) (by decide)

/-! ## The coordinate round trip -/

theorem quant_nonneg (t : ℚ) (dim : Nat) (ht : 0 ≤ t) : 0 ≤ ⌊t * (dim : ℚ)⌋ := by
  apply Int.le_floor.mpr
  push_cast
  positivity

theorem quant_lt (t : ℚ) (dim : Nat) (hdim : 1 ≤ dim) (ht : t < 1) :
    ⌊t * (dim : ℚ)⌋ < (dim : Int) := by
  apply Int.floor_lt.mpr
  push_cast
  have hD : (0:ℚ) < (dim : ℚ) := by
    have : (0:Nat) < dim := hdim
    exact_mod_cast this
  calc t * (dim : ℚ) < 1 * (dim : ℚ) := mul_lt_mul_of_pos_right ht hD
    _ = (dim : ℚ) := one_mul _

/-- The decoded centre of the cell a coordinate quantizes into is within half
a cell width of the coordinate. -/
theorem center_err (t : ℚ) (dim : Nat) (hdim : 1 ≤ dim) (c : ℚ) (hc : 0 < c) :
    |((⌊t * (dim : ℚ)⌋ : ℚ) / (dim : ℚ) * (2 * c) - c + c / (dim : ℚ))
        - (t * (2 * c) - c)| ≤ c / (dim : ℚ) := by
  have hD : (0:ℚ) < (dim : ℚ) := by
    have : (0:Nat) < dim := hdim
    exact_mod_cast this
  have he0 : 0 ≤ t * (dim : ℚ) - (⌊t * (dim : ℚ)⌋ : ℚ) := by
    have := Int.floor_le (t * (dim : ℚ))
    linarith
  have he1 : t * (dim : ℚ) - (⌊t * (dim : ℚ)⌋ : ℚ) < 1 := by
    have := Int.lt_floor_add_one (t * (dim : ℚ))
    linarith
  have hkey : (((⌊t * (dim : ℚ)⌋ : ℚ) / (dim : ℚ) * (2 * c) - c + c / (dim : ℚ))
        - (t * (2 * c) - c)) * (dim : ℚ)
      = c - (t * (dim : ℚ) - (⌊t * (dim : ℚ)⌋ : ℚ)) * (2 * c) := by
    field_simp
    rw [← Int.self_sub_floor]
    ring
  have habs : |(((⌊t * (dim : ℚ)⌋ : ℚ) / (dim : ℚ) * (2 * c) - c + c / (dim : ℚ))
      - (t * (2 * c) - c)) * (dim : ℚ)| ≤ c := by
    rw [hkey, abs_le]
    constructor <;> nlinarith
  rw [abs_mul, abs_of_pos hD] at habs
  exact (le_div_iff hD).mpr habs

/-- **C3 (amended).** For every coordinate with `lng ∈ [-180, 180)` and
`lat ∈ [-90, 90)` (strictly below the maxima — see the counterexample for
`lng = 180`), every `precision ≥ 0` and `bits_per_char ∈ {2, 4, 6}`,
`decode(encode(lng, lat, precision, bpc), bpc)` succeeds, and the decoded
coordinate differs from the input by at most the `lng_error`/`lat_error` that
`_dim_error` gives for the level used by `encode`. -/
theorem decode_encode_within_error (lng lat : ℚ) (p : Int) (bpc : Nat)
    (h1 : -180 ≤ lng) (h2 : lng < 180) (h3 : -90 ≤ lat) (h4 : lat < 90)
    (h5 : 0 ≤ p) (hbpc : bpc = 2 ∨ bpc = 4 ∨ bpc = 6) :
    ∃ (code : List Nat) (lng2 lat2 : ℚ),
      encode lng lat p bpc = some code
      ∧ decode code bpc = some (lng2, lat2)
      ∧ |lng2 - lng| ≤ (dimError (p.toNat * bpc / 2)).1
      ∧ |lat2 - lat| ≤ (dimError (p.toNat * bpc / 2)).2 := by
  have hbpc0 : 0 < bpc := by rcases hbpc with h | h | h <;> omega
  have hone : (1:Nat) ≤ 2 ^ (p.toNat * bpc / 2) := Nat.one_le_two_pow
  -- the quantized cell
  have htx0 : (0:ℚ) ≤ (lng + 180) / 360 := by linarith
  have htx1 : (lng + 180) / 360 < 1 := (div_lt_one (by norm_num)).mpr (by linarith)
  have hty0 : (0:ℚ) ≤ (lat + 90) / 180 := by linarith
  have hty1 : (lat + 90) / 180 < 1 := (div_lt_one (by norm_num)).mpr (by linarith)
  have hx0 := quant_nonneg ((lng + 180) / 360) (2 ^ (p.toNat * bpc / 2)) htx0
  have hx1 := quant_lt ((lng + 180) / 360) (2 ^ (p.toNat * bpc / 2)) hone htx1
  have hy0 := quant_nonneg ((lat + 90) / 180) (2 ^ (p.toNat * bpc / 2)) hty0
  have hy1 := quant_lt ((lat + 90) / 180) (2 ^ (p.toNat * bpc / 2)) hone hty1
  have hxcast : (⌊(lng + 180) / 360 * ((2 ^ (p.toNat * bpc / 2) : Nat) : ℚ)⌋ : Int)
      < ((2 ^ (p.toNat * bpc / 2) : Nat) : Int) := hx1
  have hycast : (⌊(lat + 90) / 180 * ((2 ^ (p.toNat * bpc / 2) : Nat) : ℚ)⌋ : Int)
      < ((2 ^ (p.toNat * bpc / 2) : Nat) : Int) := hy1
  -- the curve index fits in precision characters
  have heven : 2 * (p.toNat * bpc / 2) = p.toNat * bpc := by
    rcases hbpc with h | h | h <;> subst h <;> omega
  have hvlt : xy2hash ⌊(lng + 180) / 360 * ((2 ^ (p.toNat * bpc / 2) : Nat) : ℚ)⌋
      ⌊(lat + 90) / 180 * ((2 ^ (p.toNat * bpc / 2) : Nat) : ℚ)⌋ (2 ^ (p.toNat * bpc / 2))
      < 2 ^ (bpc * p.toNat) := by
    rw [xy2hash_pow]
    have := hilbertF_lt (p.toNat * bpc / 2)
      ⌊(lng + 180) / 360 * ((2 ^ (p.toNat * bpc / 2) : Nat) : ℚ)⌋
      ⌊(lat + 90) / 180 * ((2 ^ (p.toNat * bpc / 2) : Nat) : ℚ)⌋
    have h4eq : (4:Nat) ^ (p.toNat * bpc / 2) = 2 ^ (bpc * p.toNat) := by
      rw [show (4:Nat) = 2 ^ 2 from rfl, ← pow_mul]
      congr 1
      have hcomm : p.toNat * bpc = bpc * p.toNat := Nat.mul_comm _ _
      omega
    rw [h4eq] at this
    exact this
  have hlen := encodeInt_length_le bpc p.toNat _ hvlt
  -- encode computes
  have hencode : encode lng lat p bpc
      = some (rjust (encodeInt (xy2hash
          ⌊(lng + 180) / 360 * ((2 ^ (p.toNat * bpc / 2) : Nat) : ℚ)⌋
          ⌊(lat + 90) / 180 * ((2 ^ (p.toNat * bpc / 2) : Nat) : ℚ)⌋
          (2 ^ (p.toNat * bpc / 2))) bpc) p.toNat) := by
    rw [encode, if_pos ⟨h1, le_of_lt h2, h3, le_of_lt h4, h5, hbpc⟩]
    simp only [Nat.shiftRight_one, Nat.one_shiftLeft]
    rw [coord2int, if_pos hone]
  -- decode computes
  have hcodelen : (rjust (encodeInt (xy2hash
      ⌊(lng + 180) / 360 * ((2 ^ (p.toNat * bpc / 2) : Nat) : ℚ)⌋
      ⌊(lat + 90) / 180 * ((2 ^ (p.toNat * bpc / 2) : Nat) : ℚ)⌋
      (2 ^ (p.toNat * bpc / 2))) bpc) p.toNat).length = p.toNat :=
    rjust_length _ _ hlen
  have hrt := hash2xy_xy2hash (p.toNat * bpc / 2)
    ⌊(lng + 180) / 360 * ((2 ^ (p.toNat * bpc / 2) : Nat) : ℚ)⌋
    ⌊(lat + 90) / 180 * ((2 ^ (p.toNat * bpc / 2) : Nat) : ℚ)⌋
    hx0 hxcast hy0 hycast
  have hdecode : decode (rjust (encodeInt (xy2hash
      ⌊(lng + 180) / 360 * ((2 ^ (p.toNat * bpc / 2) : Nat) : ℚ)⌋
      ⌊(lat + 90) / 180 * ((2 ^ (p.toNat * bpc / 2) : Nat) : ℚ)⌋
      (2 ^ (p.toNat * bpc / 2))) bpc) p.toNat) bpc
      = some ((⌊(lng + 180) / 360 * ((2 ^ (p.toNat * bpc / 2) : Nat) : ℚ)⌋ : ℚ)
            / ((2 ^ (p.toNat * bpc / 2) : Nat) : ℚ) * 360 - 180
            + 180 / 2 ^ (p.toNat * bpc / 2),
          (⌊(lat + 90) / 180 * ((2 ^ (p.toNat * bpc / 2) : Nat) : ℚ)⌋ : ℚ)
            / ((2 ^ (p.toNat * bpc / 2) : Nat) : ℚ) * 180 - 90
            + 90 / 2 ^ (p.toNat * bpc / 2)) := by
    rw [decode, if_pos hbpc, decodeExactly, if_pos hbpc, hcodelen]
    simp only [Nat.shiftRight_one, Nat.one_shiftLeft]
    rw [decodeInt_rjust _ _ _ hbpc0, hrt]
    dsimp only
    rw [int2coord, if_pos ⟨hone, hxcast, hycast⟩]
    dsimp only
    rw [dimError_eq]
  -- the error bounds
  have hex := center_err ((lng + 180) / 360) (2 ^ (p.toNat * bpc / 2)) hone 180 (by norm_num)
  have hey := center_err ((lat + 90) / 180) (2 ^ (p.toNat * bpc / 2)) hone 90 (by norm_num)
  have hpow : ((2 ^ (p.toNat * bpc / 2) : Nat) : ℚ) = (2:ℚ) ^ (p.toNat * bpc / 2) := by
    push_cast
    rfl
  have hxt : (lng + 180) / 360 * (2 * (180:ℚ)) - 180 = lng := by ring
  have hyt : (lat + 90) / 180 * (2 * (90:ℚ)) - 90 = lat := by ring
  rw [hxt, hpow] at hex
  rw [hyt, hpow] at hey
  refine ⟨_, _, _, hencode, hdecode, ?_, ?_⟩
  · rw [dimError_eq]
    dsimp only
    rw [hpow]
    nth_rewrite 2 [show (360:ℚ) = 2 * 180 from by norm_num]
    exact hex
  · rw [dimError_eq]
    dsimp only
    rw [hpow]
    nth_rewrite 2 [show (180:ℚ) = 2 * 90 from by norm_num]
    exact hey

theorem decode_encode_within_error_check :
    ∃ (code : List Nat) (lng2 lat2 : ℚ),
      encode 10 20 2 4 = some code
      ∧ decode code 4 = some (lng2, lat2)
      ∧ |lng2 - 10| ≤ (dimError ((2:Int).toNat * 4 / 2)).1
      ∧ |lat2 - 20| ≤ (dimError ((2:Int).toNat * 4 / 2)).2 :=
  decode_encode_within_error 10 20 2 4 (by norm_num) (by norm_num) (by norm_num)
    (by norm_num) (by norm_num) (by norm_num)

/-- **C3 (counterexample).** At the boundary coordinate `lng = 180` the claim
fails: `encode(180.0, 0.0, 1, 2)` quantizes to the out-of-range cell
`x = dim`, whose bits the transform reads as the cell `x = 0`, so the decoded
longitude is `-90` — off by `270`, far beyond the `lng_error = 90` that
`_dim_error` gives for level 1. -/
theorem decode_encode_boundary_violation :
    encode 180 0 1 2 = some [1]
    ∧ decode [1] 2 = some (-90, 45)
    ∧ (dimError ((1 * 2) >>> 1)).1 < |(-90 : ℚ) - 180| := by
  refine ⟨?_, ?_, ?_⟩
  · rw [encode, if_pos (by norm_num)]
    simp only [show Int.toNat 1 = 1 from rfl, show 1 * 2 = 2 from rfl,
      show 2 >>> 1 = 1 from by decide, show 1 <<< 1 = 2 from by decide]
    rw [coord2int, if_pos (by norm_num)]
    have hfx : ⌊((180:ℚ) + 180) / 360 * ((2:Nat) : ℚ)⌋ = 2 := by
      norm_num
    have hfy : ⌊((0:ℚ) + 90) / 180 * ((2:Nat) : ℚ)⌋ = 1 := by
      rw [show ((0:ℚ) + 90) / 180 * ((2:Nat) : ℚ) = 1 by norm_num]
      exact Int.floor_one
    rw [hfx, hfy]
    dsimp only
    rw [show xy2hash 2 1 2 = 1 from (xy2hash_pow 1 2 1).trans (by decide)]
    rw [encodeInt, if_pos (by norm_num),
      show (1:Nat) >>> 2 = 0 from by decide, encodeInt_zero]
    rw [rjust]
    norm_num
  · rw [decode, if_pos (by norm_num), decodeExactly, if_pos (by norm_num)]
    simp only [List.length_singleton, show 1 * 2 = 2 from rfl,
      show 2 >>> 1 = 1 from by decide, show 1 <<< 1 = 2 from by decide]
    rw [show decodeInt [1] 2 = 1 from rfl, hash2xy_of_lt 1 2 (by norm_num),
      show hash2xyCell 1 2 = (0, 1) from (hash2xyCell_pow 1 1).trans (by decide)]
    dsimp only
    rw [int2coord, if_pos ⟨by norm_num, by norm_num, by norm_num⟩]
    dsimp only
    rw [dimError_eq]
    norm_num
  · rw [show (1 * 2) >>> 1 = 1 from by decide, dimError_eq]
    rw [abs_of_neg (by norm_num : (-90 : ℚ) - 180 < 0)]
    norm_num

end Geohash
